import Mathlib

/-!
Shallow embedding of the bcbc hashing pipeline (internal/app/bcbc) and proofs
about its specification claims.

Modelling conventions:
* File-system effects are made explicit: functions that read files take the
  file contents (or scanner line lists) as arguments, and functions that
  write files return the written content.
* `logf.Fatalf` / the `fatalMessage*` helpers abort the process; fallible
  functions are embedded with `Except`, the error value carrying the fatal
  log message.
* Go `uint64` counters are modelled as `Nat`; byte totals of a disk stay far
  below `2^64`, so wrap-around is not modelled.
* Third-party library calls (`regexp`, `x/text/unicode/norm`, `crypto/md5`)
  are modelled by executable Lean functions: the two concrete regular
  expressions of the program are compiled by hand, NFC is modelled by a
  composition algorithm over a representative table of combining pairs, and
  an md5 digest is an opaque input string of the model.
-/

namespace Bcbc

instance {ε α : Type} [DecidableEq ε] [DecidableEq α] : DecidableEq (Except ε α) := fun x y =>
  match x, y with
  | Except.error a, Except.error b =>
    if h : a = b then isTrue (by rw [h]) else isFalse (fun k => h (Except.error.injEq a b ▸ k))
  | Except.error _, Except.ok _ => isFalse (fun k => Except.noConfusion k)
  | Except.ok _, Except.error _ => isFalse (fun k => Except.noConfusion k)
  | Except.ok a, Except.ok b =>
    if h : a = b then isTrue (by rw [h]) else isFalse (fun k => h (Except.ok.injEq a b ▸ k))

/-- The character class `[A-Z]` of the Go regular expressions. -/
def isUpperLetter (c : Char) : Bool := decide ('A' ≤ c) && decide (c ≤ 'Z')

/-- The character class `\d` of the Go regular expressions (ASCII digits). -/
def isDigitChar (c : Char) : Bool := decide ('0' ≤ c) && decide (c ≤ '9')

/-- DiskInfo — ディスク情報 (disk.go). -/
structure DiskInfo where
  index : Nat
  id : String
  rootPath : String
deriving DecidableEq

/-- Character-list core of `markerMatch`. -/
def markerMatchChars : List Char → Option (List Char)
  | [] => none
  | c :: rest =>
    if isUpperLetter c then
      if (rest.takeWhile isDigitChar).isEmpty then none
      else some (c :: rest.takeWhile isDigitChar)
    else none

/-- Hand-compiled form of disk.go's `regexp.MustCompile("\\A([A-Z]\\d+)")`
applied via `FindStringSubmatch`: an anchored match of one uppercase letter
followed by one or more digits, returning the (greedy) matched text. -/
def markerMatch (content : String) : Option String :=
  (markerMatchChars content.data).map String.mk

/-- Model of Go `strings.Split(s, sep)` for a one-character separator,
over character lists. -/
def splitChars (sep : Char) : List Char → List (List Char)
  | [] => [[]]
  | c :: rest =>
    match splitChars sep rest with
    | [] => [[c]]
    | seg :: segs => if c = sep then [] :: seg :: segs else (c :: seg) :: segs

/-- Segments joined back with `/` between them. -/
def joinWithSlash : List (List Char) → List Char
  | [] => []
  | [x] => x
  | x :: xs => x ++ '/' :: joinWithSlash xs

/-- Model of Go `path.Dir` for the slash-separated paths the program builds
with `path.Join` (path cleaning of exotic inputs is not modelled). -/
def dirOf (p : String) : String :=
  let parts := splitChars '/' p.data
  if parts.length ≤ 1 then "." else String.mk (joinWithSlash parts.dropLast)

/-- Loop body of `makeDiskInfoList` (disk.go): `idx` is `len(diskInfoList)`
so far; each disk file is given as `(path, content)`; a content the marker
pattern rejects is fatal (`fatalMessageIf`), modelled as the error branch
carrying the log message. -/
def makeDiskInfoListAux : Nat → List (String × String) → Except String (List DiskInfo)
  | _, [] => Except.ok []
  | idx, (diskFile, content) :: rest =>
    match markerMatch content with
    | none => Except.error ("diskファイルの内容が不正です。: " ++ diskFile)
    | some id =>
      match makeDiskInfoListAux (idx + 1) rest with
      | Except.error e => Except.error e
      | Except.ok tail => Except.ok ({ index := idx, id := id, rootPath := dirOf diskFile } :: tail)

/-- `makeDiskInfoList` (disk.go), over the contents of the disk marker
files; reading a marker file is modelled as being handed its content. -/
def makeDiskInfoList (diskFiles : List (String × String)) : Except String (List DiskInfo) :=
  makeDiskInfoListAux 0 diskFiles

/-- Filter — フィルター (init.go): a compiled pattern, modelled by its
`MatchString` behaviour, and the inclusion flag. -/
structure Filter where
  pattern : String → Bool
  inclusion : Bool

/-- `filterFile` (disk.go): first matching rule wins, no match excludes.
The global `config.filters` is passed explicitly. -/
def filterFile (filters : List Filter) (normPath : String) : Bool :=
  match filters with
  | [] => false
  | f :: rest => if f.pattern normPath then f.inclusion else filterFile rest normPath

/-- `strings.Split(line, ":")` as used by `makeHashMap` (disk.go). -/
def splitOnColon (s : String) : List String :=
  (splitChars ':' s.data).map String.mk

/-- Loop of `makeHashMap` (disk.go): `i` is the 1-based line number; a line
that does not split into exactly two tokens is fatal, the message naming the
hash file and the line number.  The Go `map` assignment overwrites, so a
later line is prepended and `List.lookup` finds it first. -/
def makeHashMapAux (hashFile : String) : Nat → List (String × String) → List String → Except String (List (String × String))
  | _, acc, [] => Except.ok acc
  | i, acc, line :: rest =>
    match splitOnColon line with
    | [a, b] => makeHashMapAux hashFile (i + 1) ((a, b) :: acc) rest
    | _ => Except.error ("ハッシュファイルが破損しています。: " ++ hashFile ++ " : " ++ toString i ++ "行目:")

/-- `makeHashMap` (disk.go), over the scanner lines of the prior fingerprint
file; a missing file is the `[]` line list (empty map). -/
def makeHashMap (hashFile : String) (lines : List String) : Except String (List (String × String)) :=
  makeHashMapAux hashFile 1 [] lines

/-- U+0301 COMBINING ACUTE ACCENT. -/
def combiningAcute : Char := Char.ofNat 0x301

/-- U+0308 COMBINING DIAERESIS. -/
def combiningDiaeresis : Char := Char.ofNat 0x308

/-- Canonical composition table of the NFC model: a representative subset of
Unicode's primary composites ('e'+acute = 'é', 'a'+acute = 'á',
'o'+diaeresis = 'ö').  Models `x/text/unicode/norm` (norm.NFC), which is a
library external to the repository. -/
def composePair (a b : Char) : Option Char :=
  if a = 'e' ∧ b = combiningAcute then some (Char.ofNat 0xE9)
  else if a = 'a' ∧ b = combiningAcute then some (Char.ofNat 0xE1)
  else if a = 'o' ∧ b = combiningDiaeresis then some (Char.ofNat 0xF6)
  else none

/-- Canonical composition pass of the NFC model: keep one pending character
and combine it with a following combining mark when the table composes. -/
def nfcAux : Option Char → List Char → List Char
  | none, [] => []
  | some p, [] => [p]
  | none, c :: rest => nfcAux (some c) rest
  | some p, c :: rest =>
    match composePair p c with
    | some pc => nfcAux (some pc) rest
    | none => p :: nfcAux (some c) rest

/-- `norm.NFC.String` of the model. -/
def nfcStr (s : String) : String := String.mk (nfcAux none s.data)

/-- Canonical decomposition of one character (the inverse direction of the
table); used to build NFD variants of a path. -/
def decomposeChar (c : Char) : List Char :=
  if c = Char.ofNat 0xE9 then ['e', combiningAcute]
  else if c = Char.ofNat 0xE1 then ['a', combiningAcute]
  else if c = Char.ofNat 0xF6 then ['o', combiningDiaeresis]
  else [c]

/-- NFD variant of a string under the modelled table. -/
def decomposeStr (s : String) : String := String.mk (s.data.flatMap decomposeChar)

/-- Model of Go `filepath.ToSlash` on an OS whose separator is `sep`:
the identity when the separator already is `/`, otherwise every separator
is rewritten to `/`. -/
def toSlash (sep : Char) (s : String) : String :=
  if sep = '/' then s else String.mk (s.data.map (fun c => if c = sep then '/' else c))

/-- Restyling of a slash-separated path for a `\`-separated OS (used to
state platform independence). -/
def toBackslash (s : String) : String :=
  String.mk (s.data.map (fun c => if c = '/' then '\\' else c))

/-- `p` begins with the pattern list `q`. -/
def startsWithList : List Char → List Char → Bool
  | [], _ => true
  | _ :: _, [] => false
  | a :: as, b :: bs => a = b && startsWithList as bs

/-- Model of Go `filepath.Rel(base, targ)` restricted to the only case the
program exercises: `targ` produced by walking below `base`, so the relative
path is the remainder after `base` and one separator. -/
def relPath (sep : Char) (base targ : String) : String :=
  if startsWithList (base.data ++ [sep]) targ.data then
    String.mk (targ.data.drop (base.data.length + 1))
  else targ

/-- The canonical-path computation of `FileInfo.init` (disk.go): path
relative to the disk root, separators rewritten to `/`, NFC applied. -/
def initNormPath (sep : Char) (rootPath realPath : String) : String :=
  nfcStr (toSlash sep (relPath sep rootPath realPath))

/-- FileInfo — ファイル情報 (disk.go); the lazily cached `_size` is modelled
as already resolved (`size()` returns the stat size, or 0 on a stat error,
never an error value). -/
structure FileInfo where
  realPath : String
  normPath : String
  size : Nat
deriving DecidableEq

/-- Accumulator of the `listFileInfo` walk loop: the queued files, the
running byte total and the carry-forward buffer `trimmedHashs`. -/
structure ListState where
  fileInfoList : List FileInfo
  totalSize : Nat
  trimmedHashs : String
deriving DecidableEq

/-- One iteration of `listFileInfo`'s loop over the walked files (disk.go):
a file whose canonical path is in the prior map is appended to the
carry-forward buffer and skipped; otherwise the filter decides whether it is
queued and sized.  `sizeOf` models `os.Stat` (0 on a stat failure). -/
def listFileInfoStep (sep : Char) (filters : List Filter) (sizeOf : String → Nat)
    (rootPath : String) (hashMap : List (String × String)) (s : ListState) (file : String) : ListState :=
  let normPath := initNormPath sep rootPath file
  match hashMap.lookup normPath with
  | some hash => { s with trimmedHashs := s.trimmedHashs ++ (normPath ++ ":" ++ hash ++ "\n") }
  | none =>
    if filterFile filters normPath then
      { s with fileInfoList := s.fileInfoList ++ [⟨file, normPath, sizeOf file⟩],
               totalSize := s.totalSize + sizeOf file }
    else s

/-- `listFileInfo` (disk.go) over the walk result `files`; the prior map is
the (already parsed) `makeHashMap` result; the returned `trimmedHashs` is
the content `ioutil.WriteFile` overwrites the disk's fingerprint file
with. -/
def listFileInfo (sep : Char) (filters : List Filter) (sizeOf : String → Nat)
    (rootPath : String) (hashMap : List (String × String)) (files : List String) : ListState :=
  files.foldl (listFileInfoStep sep filters sizeOf rootPath hashMap) ⟨[], 0, ""⟩

/-- The carry-forward records as the specification words them: one
`path:digest` line per visited file whose canonical path the prior mapping
contains, with the prior digest, in walk order. -/
def specCarryRecords (sep : Char) (rootPath : String) (hashMap : List (String × String))
    (files : List String) : List String :=
  files.filterMap (fun file =>
    let np := initNormPath sep rootPath file
    (hashMap.lookup np).map (fun h => np ++ ":" ++ h ++ "\n"))

/-- ProgressCount (progress.go). -/
structure ProgressCount where
  total : Nat
  processed : Nat
deriving DecidableEq

/-- `ProgressCount.Increment` (progress.go). -/
def ProgressCount.Increment (pc : ProgressCount) (n : Nat) : ProgressCount :=
  { pc with processed := pc.processed + n }

/-- ProgressInfo — 進捗情報 (progress.go); the `diskInfo` pointer and
`startTime` play no part in the claims and are omitted. -/
structure ProgressInfo where
  sizeCount : ProgressCount
  fileCount : ProgressCount
  processingFile : String
deriving DecidableEq

/-- One queued file as the hashing phase sees it (hash.go): `size` is what
`fi.size()` returns inside `hashRoutine`; `opened` is whether `os.Open`
succeeds in `calcHash`; `chunks` are the byte counts of the successful
chunk reads (each is followed by a progress send); `readOk` is false when
the read loop then fails with a non-EOF error; `digest` is the md5 hex
digest produced when hashing completes (the digest function itself is
opaque to the model). -/
structure HashJob where
  realPath : String
  normPath : String
  size : Nat
  opened : Bool
  chunks : List Nat
  readOk : Bool
  digest : String

/-- The progress snapshots `calcHash` sends: after each chunk read the
local (by-value) copy's `sizeCount` is incremented and sent. -/
def calcHashSnaps (pi : ProgressInfo) : List Nat → List ProgressInfo
  | [] => []
  | c :: rest =>
    let pi2 := { pi with sizeCount := pi.sizeCount.Increment c }
    pi2 :: calcHashSnaps pi2 rest

/-- `calcHash` (hash.go): on an open failure it logs and returns the error
having sent nothing; otherwise it notes the processing file in its local
copy, sends one snapshot per chunk, and returns the digest unless the read
loop failed.  Result: (snapshots sent, log lines, digest or failure). -/
def calcHash (f : HashJob) (pi : ProgressInfo) : List ProgressInfo × List String × Option String :=
  if f.opened then
    let pi2 := { pi with processingFile := f.realPath }
    (calcHashSnaps pi2 f.chunks, [], if f.readOk then some f.digest else none)
  else ([], ["ハッシュ対象ファイルの読み込みに失敗しました。: " ++ f.realPath], none)

/-- Observable outcome of a `hashRoutine` run: the snapshots sent on the
progress channel, the fingerprint lines appended to the disk's hash file,
the log lines, and the worker's final counter state. -/
structure HashRun where
  snaps : List ProgressInfo
  lines : List String
  logs : List String
  finalInfo : ProgressInfo

/-- The per-file loop of `hashRoutine` (hash.go): after `calcHash` the
counters advance by one file and by `fi.size()` regardless of success; on a
failure the routine logs and continues without writing a line; on success a
`normPath:digest` line is appended.  Writes to the already-open hash file
are assumed to succeed (the mid-run write-error path is not modelled). -/
def hashLoop (pi : ProgressInfo) : List HashJob → HashRun
  | [] => ⟨[], [], [], pi⟩
  | f :: rest =>
    let c := calcHash f pi
    let pi2 := { pi with fileCount := pi.fileCount.Increment 1,
                         sizeCount := pi.sizeCount.Increment f.size }
    let r := hashLoop pi2 rest
    { snaps := c.1 ++ r.snaps,
      lines := (match c.2.2 with
                | some d => [f.normPath ++ ":" ++ d ++ "\n"]
                | none => []) ++ r.lines,
      logs := c.2.1 ++ (match c.2.2 with
                | some _ => []
                | none => ["ハッシュ計算中にエラーが発生しました。: " ++ f.realPath]) ++ r.logs,
      finalInfo := r.finalInfo }

/-- `hashRoutine` (hash.go) for one disk, over the queued files and the
total returned by `listFileInfo`: it seeds the totals, sends the seed
snapshot, runs the loop, and sends one final snapshot after the loop. -/
def hashRoutine (files : List HashJob) (totalSize : Nat) : HashRun :=
  let pi0 : ProgressInfo :=
    { fileCount := ⟨files.length, 0⟩, sizeCount := ⟨totalSize, 0⟩, processingFile := "" }
  let r := hashLoop pi0 files
  { snaps := pi0 :: r.snaps ++ [r.finalInfo],
    lines := r.lines,
    logs := r.logs,
    finalInfo := r.finalInfo }

/-- Ordering of two snapshots by their processed counters (the claims'
never-decrease relation). -/
def countsLE (a b : ProgressInfo) : Prop :=
  a.fileCount.processed ≤ b.fileCount.processed ∧ a.sizeCount.processed ≤ b.sizeCount.processed

instance : DecidableRel countsLE := fun a b =>
  inferInstanceAs (Decidable (a.fileCount.processed ≤ b.fileCount.processed ∧
    a.sizeCount.processed ≤ b.sizeCount.processed))

/-- Executable check that a snapshot list never decreases in either
processed counter. -/
def monotoneSnaps : List ProgressInfo → Bool
  | [] => true
  | [_] => true
  | a :: b :: rest => decide (countsLE a b) && monotoneSnaps (b :: rest)

/-- Character-list core of `hashFileGroup`. -/
def hashFileGroupChars : List Char → Option Char
  | [] => none
  | c :: rest => if isUpperLetter c && !rest.isEmpty && rest.all isDigitChar then some c else none

/-- Hand-compiled form of calc.go's `regexp.MustCompile("^([A-Z])\\d+$")`
with its one capture group: the whole name is one uppercase letter followed
by one or more digits; the captured group is that letter. -/
def hashFileGroup (name : String) : Option Char :=
  hashFileGroupChars name.data

/-- The scanner loop over one input file in `executeHashFileIntegration`
(calc.go): every non-empty line is appended. -/
def readFileLines (lines : List String) : List String :=
  lines.filter (fun l => l ≠ "")

/-- Go map assignment `m[g] = v` on an association list: replace the
binding if present, else add it. -/
def updateAssoc : List (Char × List String) → Char → List String → List (Char × List String)
  | [], g, v => [(g, v)]
  | (k, w) :: rest, g, v =>
    if k = g then (k, v) :: rest else (k, w) :: updateAssoc rest g v

/-- Loop body of the first phase of `executeHashFileIntegration` (calc.go):
a file whose name the hash-file pattern rejects is skipped; otherwise its
non-empty lines are appended to the group's entry (`mergedHashMap[group]`). -/
def mergeStep (m : List (Char × List String)) (nf : String × List String) :
    List (Char × List String) :=
  match hashFileGroup nf.1 with
  | none => m
  | some g => updateAssoc m g (((m.lookup g).getD []) ++ readFileLines nf.2)

/-- First phase of `executeHashFileIntegration` (calc.go): fold the loop
body over the output-directory files (name, scanner lines). -/
def mergeCollect (files : List (String × List String)) : List (Char × List String) :=
  files.foldl mergeStep []

/-- Byte-lexicographic order on character lists; on UTF-8 strings the Go
byte order coincides with this codepoint order. -/
def lexLeChars : List Char → List Char → Bool
  | [], _ => true
  | _ :: _, [] => false
  | a :: as, b :: bs => if a = b then lexLeChars as bs else decide (a < b)

/-- Go `sort.Strings`' order: byte-lexicographic string comparison. -/
def lexLe (a b : String) : Bool := lexLeChars a.data b.data

/-- `sort.Strings` of the model: some sorting of the lines by `lexLe`
(which sort algorithm Go uses is irrelevant up to equal elements; `lexLe`
is total, so the sorted permutation is unique). -/
def sortStrings (l : List String) : List String :=
  l.insertionSort (fun a b => lexLe a b = true)

/-- Second phase of `executeHashFileIntegration` (calc.go): each group's
collected lines are sorted and written to the group's file, truncating any
prior content.  The full function maps the directory listing to the family
of (group name letter, written lines). -/
def executeHashFileIntegration (files : List (String × List String)) : List (Char × List String) :=
  (mergeCollect files).map (fun p => (p.1, sortStrings p.2))

/-- The merged lines of one group as the (amended) specification words
them: the non-empty lines of every matching file of that group,
concatenated in directory order. -/
def specGroupLines (files : List (String × List String)) (g : Char) : List String :=
  (files.filterMap (fun nf =>
    if hashFileGroup nf.1 = some g then some (readFileLines nf.2) else none)).flatten

theorem monotoneSnaps_iff : ∀ l : List ProgressInfo, monotoneSnaps l = true ↔ List.Chain' countsLE l
  | [] => by simp [monotoneSnaps]
  | [a] => by simp [monotoneSnaps]
  | a :: b :: rest => by
    rw [List.chain'_cons, ← monotoneSnaps_iff (b :: rest)]
    simp [monotoneSnaps]

theorem filterFile_no_match (fs : List Filter) (path : String)
    (h : ∀ f ∈ fs, f.pattern path = false) : filterFile fs path = false := by
  induction fs with
  | nil => rfl
  | cons g gs ih =>
    have hg : g.pattern path = false := h g (List.mem_cons_self g gs)
    simp only [filterFile, hg, Bool.false_eq_true, if_false]
    exact ih (fun x hx => h x (List.mem_cons_of_mem g hx))

theorem filterFile_skip (fs₁ : List Filter) (f : Filter) (fs₂ : List Filter) (path : String)
    (h1 : ∀ g ∈ fs₁, g.pattern path = false) (hf : f.pattern path = true) :
    filterFile (fs₁ ++ f :: fs₂) path = f.inclusion := by
  induction fs₁ with
  | nil => simp [filterFile, hf]
  | cons g gs ih =>
    have hg : g.pattern path = false := h1 g (List.mem_cons_self g gs)
    simp only [List.cons_append, filterFile, hg, Bool.false_eq_true, if_false]
    exact ih (fun x hx => h1 x (List.mem_cons_of_mem g hx))

/-- Claim C4: `filterFile` returns the inclusion flag of the first rule whose
pattern matches the path, never consulting later rules, returns false when no
rule matches, and with an empty rule list excludes every path. -/
theorem filterFile_first_match_wins :
    (∀ path : String, filterFile [] path = false)
    ∧ (∀ (fs : List Filter) (path : String),
        (∀ f ∈ fs, f.pattern path = false) → filterFile fs path = false)
    ∧ (∀ (fs₁ : List Filter) (f : Filter) (fs₂ fs₃ : List Filter) (path : String),
        (∀ g ∈ fs₁, g.pattern path = false) → f.pattern path = true →
        filterFile (fs₁ ++ f :: fs₂) path = f.inclusion ∧
        filterFile (fs₁ ++ f :: fs₂) path = filterFile (fs₁ ++ f :: fs₃) path) := by
  refine ⟨fun _ => rfl, filterFile_no_match, ?_⟩
  intro fs₁ f fs₂ fs₃ path h1 hf
  rw [filterFile_skip fs₁ f fs₂ path h1 hf, filterFile_skip fs₁ f fs₃ path h1 hf]
  exact ⟨rfl, rfl⟩

/-- Witness for C4: with rules `[-x, +a, -anything]` the path `a` is
included by the second rule, and the rules after the match are never
consulted. -/
theorem filterFile_first_match_wins_witness :
    (∀ g ∈ [Filter.mk (fun s => s = "x") false], g.pattern "a" = false) ∧
    (Filter.mk (fun s => s = "a") true).pattern "a" = true ∧
    filterFile ([Filter.mk (fun s => s = "x") false] ++
      Filter.mk (fun s => s = "a") true :: [Filter.mk (fun _ => true) false]) "a" = true ∧
    filterFile ([Filter.mk (fun s => s = "x") false] ++
      Filter.mk (fun s => s = "a") true :: [Filter.mk (fun _ => true) false]) "a" =
    filterFile ([Filter.mk (fun s => s = "x") false] ++
      Filter.mk (fun s => s = "a") true :: []) "a" := by
  have h1 : ∀ g ∈ [Filter.mk (fun s => s = "x") false], g.pattern "a" = false := by
    intro g hg
    rw [List.mem_singleton] at hg
    subst hg
    rfl
  have h2 := (filterFile_first_match_wins.2.2 [Filter.mk (fun s => s = "x") false]
    (Filter.mk (fun s => s = "a") true) [Filter.mk (fun _ => true) false] [] "a" h1 rfl)
  exact ⟨h1, rfl, h2.1, h2.2⟩

theorem all_takeWhile_self (p : Char → Bool) : ∀ l : List Char, (l.takeWhile p).all p = true := by
  intro l
  induction l with
  | nil => rfl
  | cons c rest ih =>
    cases hc : p c with
    | true => simp [List.takeWhile_cons, hc, List.all_cons, ih]
    | false => simp [List.takeWhile_cons, hc]

theorem head_dropWhile_false (p : Char → Bool) :
    ∀ l : List Char, ∀ x ∈ (l.dropWhile p).head?, p x = false := by
  intro l
  induction l with
  | nil => intro x hx; cases hx
  | cons c rest ih =>
    cases hc : p c with
    | true => simpa [List.dropWhile_cons, hc] using ih
    | false =>
      intro x hx
      simp [List.dropWhile_cons, hc] at hx
      rw [← hx]
      exact hc

theorem takeWhile_of_split (p : Char → Bool) :
    ∀ (ds rest : List Char), ds.all p = true → (∀ x ∈ rest.head?, p x = false) →
    (ds ++ rest).takeWhile p = ds := by
  intro ds
  induction ds with
  | nil =>
    intro rest _ hr
    cases rest with
    | nil => rfl
    | cons r rs =>
      have : p r = false := hr r rfl
      simp [List.takeWhile_cons, this]
  | cons d ds ih =>
    intro rest hall hr
    rw [List.all_cons, Bool.and_eq_true] at hall
    simp [List.takeWhile_cons, hall.1, ih rest hall.2 hr]

theorem markerMatchChars_cons (c : Char) (r : List Char) :
    markerMatchChars (c :: r) =
      if isUpperLetter c = true then
        if (r.takeWhile isDigitChar).isEmpty = true then none
        else some (c :: r.takeWhile isDigitChar)
      else none := rfl

/-- One uppercase letter followed by at least one digit, with no digit
immediately following, is exactly what `markerMatch` accepts, and the match
is that letter with those digits. -/
theorem markerMatch_eq_some_iff (content : String) (id : String) :
    markerMatch content = some id ↔
    ∃ (c : Char) (ds rest : List Char), content.data = c :: ds ++ rest ∧
      isUpperLetter c = true ∧ ds ≠ [] ∧ ds.all isDigitChar = true ∧
      (∀ r ∈ rest.head?, isDigitChar r = false) ∧ id = String.mk (c :: ds) := by
  constructor
  · intro h
    rw [markerMatch] at h
    cases hd : content.data with
    | nil => rw [hd] at h; exact absurd h (by simp [markerMatchChars])
    | cons c r =>
      rw [hd] at h
      by_cases hc : isUpperLetter c = true
      · by_cases he : (r.takeWhile isDigitChar).isEmpty = true
        · rw [markerMatchChars_cons, if_pos hc, if_pos he] at h
          exact absurd h (by simp)
        · rw [markerMatchChars_cons, if_pos hc, if_neg he] at h
          refine ⟨c, r.takeWhile isDigitChar, r.dropWhile isDigitChar, ?_, hc, ?_, ?_, ?_, ?_⟩
          · simp [List.takeWhile_append_dropWhile]
          · intro k
            rw [k] at he
            exact he rfl
          · exact all_takeWhile_self isDigitChar r
          · exact head_dropWhile_false isDigitChar r
          · simpa using h.symm
      · rw [markerMatchChars_cons, if_neg hc] at h
        exact absurd h (by simp)
  · rintro ⟨c, ds, rest, hdata, hc, hne, hall, hhead, hid⟩
    have ht := takeWhile_of_split isDigitChar ds rest hall hhead
    rw [markerMatch, hdata, List.cons_append, markerMatchChars_cons, ht, if_pos hc]
    rw [if_neg (by simpa [List.isEmpty_iff] using hne)]
    simp [hid]

theorem makeDiskInfoListAux_ok (diskFiles : List (String × String)) :
    ∀ idx, (∀ nf ∈ diskFiles, (markerMatch nf.2).isSome = true) →
    makeDiskInfoListAux idx diskFiles = Except.ok ((diskFiles.enumFrom idx).map
      (fun p => ⟨p.1, (markerMatch p.2.2).getD "", dirOf p.2.1⟩)) := by
  induction diskFiles with
  | nil => intro idx _; rfl
  | cons nf rest ih =>
    intro idx h
    obtain ⟨id, hid⟩ := Option.isSome_iff_exists.mp (h nf (List.mem_cons_self nf rest))
    have hrest := ih (idx + 1) (fun x hx => h x (List.mem_cons_of_mem nf hx))
    cases nf with
    | mk diskFile content =>
      simp only [makeDiskInfoListAux, hid, hrest, List.enumFrom_cons, List.map_cons]
      simp [hid]

theorem makeDiskInfoListAux_error (pre : List (String × String)) :
    ∀ idx (nf : String × String) (rest : List (String × String)),
    (∀ x ∈ pre, (markerMatch x.2).isSome = true) → markerMatch nf.2 = none →
    makeDiskInfoListAux idx (pre ++ nf :: rest) =
      Except.error ("diskファイルの内容が不正です。: " ++ nf.1) := by
  induction pre with
  | nil =>
    intro idx nf rest _ hbad
    cases nf with
    | mk diskFile content => simp [makeDiskInfoListAux, hbad]
  | cons x xs ih =>
    intro idx nf rest h hbad
    obtain ⟨id, hid⟩ := Option.isSome_iff_exists.mp (h x (List.mem_cons_self x xs))
    have hrec := ih (idx + 1) nf rest (fun y hy => h y (List.mem_cons_of_mem x hy)) hbad
    cases x with
    | mk diskFile content => simp [makeDiskInfoListAux, hid, hrec]

/-- Claim C2 (amended): `makeDiskInfoList` accepts a disk marker exactly when
its content starts with a single uppercase letter followed by one or more
digits; that match is the disk id; absence of a match is fatal for the disk
root.  A marker starting with a multi-letter prefix such as `AB1` is
rejected. -/
theorem makeDiskInfoList_spec :
    (∀ content id, markerMatch content = some id ↔
      ∃ (c : Char) (ds rest : List Char), content.data = c :: ds ++ rest ∧
        isUpperLetter c = true ∧ ds ≠ [] ∧ ds.all isDigitChar = true ∧
        (∀ r ∈ rest.head?, isDigitChar r = false) ∧ id = String.mk (c :: ds))
    ∧ (∀ diskFiles : List (String × String),
        (∀ nf ∈ diskFiles, (markerMatch nf.2).isSome = true) →
        makeDiskInfoList diskFiles = Except.ok ((diskFiles.enumFrom 0).map
          (fun p => ⟨p.1, (markerMatch p.2.2).getD "", dirOf p.2.1⟩)))
    ∧ (∀ (pre : List (String × String)) (nf : String × String) (rest : List (String × String)),
        (∀ x ∈ pre, (markerMatch x.2).isSome = true) → markerMatch nf.2 = none →
        makeDiskInfoList (pre ++ nf :: rest) =
          Except.error ("diskファイルの内容が不正です。: " ++ nf.1)) :=
  ⟨markerMatch_eq_some_iff,
   fun diskFiles h => makeDiskInfoListAux_ok diskFiles 0 h,
   fun pre nf rest h hbad => makeDiskInfoListAux_error pre 0 nf rest h hbad⟩

/-- Witness for C2 (amended): the marker content `B7` is accepted with
id `B7`, and a marker reading `XY` (no digits after the first letter) is
fatal. -/
theorem makeDiskInfoList_spec_witness :
    markerMatch "B7" = some "B7" ∧
    (∀ nf ∈ [(("x/y/disk", "B7") : String × String)], (markerMatch nf.2).isSome = true) ∧
    makeDiskInfoList [("x/y/disk", "B7")] = Except.ok [⟨0, "B7", "x/y"⟩] ∧
    makeDiskInfoList [("x/y/disk", "XY")] =
      Except.error ("diskファイルの内容が不正です。: " ++ "x/y/disk") := by
  refine ⟨by decide, by decide, ?_, ?_⟩
  · exact (makeDiskInfoList_spec.2.1 [("x/y/disk", "B7")] (by decide)).trans (by decide)
  · exact makeDiskInfoList_spec.2.2 [] ("x/y/disk", "XY") [] (by decide) (by decide)

/-- Counterexample to C2 as stated: a marker whose first line starts with
the multi-letter prefix `AB1` is not accepted with id `AB1`; the disk is
rejected as invalid. -/
theorem makeDiskInfoList_multiletter_rejected :
    markerMatch "AB1" = none ∧
    makeDiskInfoList [("d/disk", "AB1")] =
      Except.error "diskファイルの内容が不正です。: d/disk" := by
  exact ⟨by decide, by decide⟩

theorem makeHashMapAux_ok_iff (hashFile : String) :
    ∀ (lines : List String) (i : Nat) (acc : List (String × String)),
    (∃ m, makeHashMapAux hashFile i acc lines = Except.ok m) ↔
      ∀ l ∈ lines, (splitOnColon l).length = 2 := by
  intro lines
  induction lines with
  | nil => intro i acc; simp [makeHashMapAux]
  | cons l rest ih =>
    intro i acc
    rcases hsp : splitOnColon l with _ | ⟨a, _ | ⟨b, _ | ⟨c, t⟩⟩⟩
    · simp [makeHashMapAux, hsp]
    · simp [makeHashMapAux, hsp]
    · rw [makeHashMapAux, hsp]
      rw [ih (i + 1) ((a, b) :: acc)]
      constructor
      · intro h x hx
        rcases List.mem_cons.mp hx with hx | hx
        · simp [hx, hsp]
        · exact h x hx
      · intro h x hx
        exact h x (List.mem_cons_of_mem l hx)
    · simp [makeHashMapAux, hsp]

theorem makeHashMapAux_first_bad (hashFile : String) :
    ∀ (pre : List String) (i : Nat) (acc : List (String × String)) (bad : String)
      (rest : List String),
    (∀ l ∈ pre, (splitOnColon l).length = 2) → (splitOnColon bad).length ≠ 2 →
    makeHashMapAux hashFile i acc (pre ++ bad :: rest) =
      Except.error ("ハッシュファイルが破損しています。: " ++ hashFile ++ " : " ++
        toString (i + pre.length) ++ "行目:") := by
  intro pre
  induction pre with
  | nil =>
    intro i acc bad rest _ hbad
    rcases hsp : splitOnColon bad with _ | ⟨a, _ | ⟨b, _ | ⟨c, t⟩⟩⟩
    · simp [makeHashMapAux, hsp]
    · simp [makeHashMapAux, hsp]
    · exact absurd (by rw [hsp]; rfl) hbad
    · simp [makeHashMapAux, hsp]
  | cons l ls ih =>
    intro i acc bad rest h hbad
    have hl : (splitOnColon l).length = 2 := h l (List.mem_cons_self l ls)
    rcases hsp : splitOnColon l with _ | ⟨a, _ | ⟨b, _ | ⟨c, t⟩⟩⟩
    · rw [hsp] at hl; exact absurd hl (by simp)
    · rw [hsp] at hl; exact absurd hl (by simp)
    · have hrec := ih (i + 1) ((a, b) :: acc) bad rest
        (fun x hx => h x (List.mem_cons_of_mem l hx)) hbad
      have harith : i + 1 + ls.length = i + (l :: ls).length := by
        rw [List.length_cons]
        omega
      rw [harith] at hrec
      simp only [List.cons_append, makeHashMapAux, hsp]
      exact hrec
    · rw [hsp] at hl; exact absurd hl (by simp)

/-- Claim C3: `makeHashMap` succeeds exactly when every prior fingerprint
line splits on `:` into exactly two tokens, and the first offending line
aborts with a fatal message naming the hash file and that line's 1-based
number; no bad line is skipped or guessed at. -/
theorem makeHashMap_corrupt_line_fatal :
    (∀ (hashFile : String) (lines : List String),
      (∃ m, makeHashMap hashFile lines = Except.ok m) ↔
        ∀ l ∈ lines, (splitOnColon l).length = 2)
    ∧ (∀ (hashFile : String) (pre : List String) (bad : String) (rest : List String),
        (∀ l ∈ pre, (splitOnColon l).length = 2) → (splitOnColon bad).length ≠ 2 →
        makeHashMap hashFile (pre ++ bad :: rest) =
          Except.error ("ハッシュファイルが破損しています。: " ++ hashFile ++ " : " ++
            toString (pre.length + 1) ++ "行目:")) := by
  constructor
  · intro hashFile lines
    exact makeHashMapAux_ok_iff hashFile lines 1 []
  · intro hashFile pre bad rest h hbad
    unfold makeHashMap
    rw [makeHashMapAux_first_bad hashFile pre 1 [] bad rest h hbad,
      Nat.add_comm 1 pre.length]

/-- Witness for C3: the fingerprint file `F` whose second line `x;y` has no
colon is fatal, the message naming `F` and line 2. -/
theorem makeHashMap_corrupt_line_fatal_witness :
    (∀ l ∈ ["a:1"], (splitOnColon l).length = 2) ∧ (splitOnColon "x;y").length ≠ 2 ∧
    makeHashMap "F" ["a:1", "x;y"] =
      Except.error "ハッシュファイルが破損しています。: F : 2行目:" := by
  refine ⟨by decide, by decide, ?_⟩
  exact (makeHashMap_corrupt_line_fatal.2 "F" ["a:1"] "x;y" [] (by decide) (by decide)).trans
    (by decide)

theorem strFoldlAppendShift : ∀ (l : List String) (x : String),
    l.foldl (fun r s => r ++ s) x = x ++ l.foldl (fun r s => r ++ s) "" := by
  intro l
  induction l with
  | nil => intro x; rw [List.foldl_nil, List.foldl_nil, String.append_empty]
  | cons a l ih =>
    intro x
    rw [List.foldl_cons, List.foldl_cons, ih (x ++ a), ih ("" ++ a),
      String.empty_append, String.append_assoc]

theorem strJoinCons (a : String) (l : List String) :
    String.join (a :: l) = a ++ String.join l := by
  rw [String.join, String.join, List.foldl_cons, String.empty_append, strFoldlAppendShift]

theorem listFileInfo_foldl_trimmed (sep : Char) (filters : List Filter) (sizeOf : String → Nat)
    (rootPath : String) (hashMap : List (String × String)) :
    ∀ (files : List String) (s : ListState),
    (files.foldl (listFileInfoStep sep filters sizeOf rootPath hashMap) s).trimmedHashs =
      s.trimmedHashs ++ String.join (specCarryRecords sep rootPath hashMap files) := by
  intro files
  induction files with
  | nil =>
    intro s
    rw [List.foldl_nil, show specCarryRecords sep rootPath hashMap [] = [] from rfl,
      show String.join [] = "" from rfl, String.append_empty]
  | cons file rest ih =>
    intro s
    rw [List.foldl_cons, ih]
    rcases hl : hashMap.lookup (initNormPath sep rootPath file) with _ | h
    · have hstep : (listFileInfoStep sep filters sizeOf rootPath hashMap s file).trimmedHashs =
          s.trimmedHashs := by
        rw [listFileInfoStep, hl]
        by_cases hf : filterFile filters (initNormPath sep rootPath file) = true
        · simp [hf]
        · simp [hf]
      have hspec : specCarryRecords sep rootPath hashMap (file :: rest) =
          specCarryRecords sep rootPath hashMap rest := by
        simp [specCarryRecords, List.filterMap_cons, hl]
      rw [hstep, hspec]
    · have hstep : (listFileInfoStep sep filters sizeOf rootPath hashMap s file).trimmedHashs =
          s.trimmedHashs ++
            (initNormPath sep rootPath file ++ ":" ++ h ++ "\n") := by
        rw [listFileInfoStep, hl]
      have hspec : specCarryRecords sep rootPath hashMap (file :: rest) =
          (initNormPath sep rootPath file ++ ":" ++ h ++ "\n") ::
            specCarryRecords sep rootPath hashMap rest := by
        simp [specCarryRecords, List.filterMap_cons, hl]
      rw [hstep, hspec, strJoinCons, String.append_assoc]

/-- Claim C1: after `listFileInfo` the disk's fingerprint file content is
exactly the carry-forward records — one `path:digest` line, with the prior
digest, for each visited file whose canonical path the prior mapping
contains, in walk order, and nothing else. -/
theorem listFileInfo_rewrites_carry_forward (sep : Char) (filters : List Filter)
    (sizeOf : String → Nat) (rootPath : String) (hashMap : List (String × String))
    (files : List String) :
    (listFileInfo sep filters sizeOf rootPath hashMap files).trimmedHashs =
      String.join (specCarryRecords sep rootPath hashMap files) := by
  rw [listFileInfo, listFileInfo_foldl_trimmed]
  simp

theorem join_split_of_mem : ∀ (l : List String) (x : String), x ∈ l →
    ∃ p q, String.join l = p ++ x ++ q := by
  intro l
  induction l with
  | nil => intro x hx; cases hx
  | cons a rest ih =>
    intro x hx
    rcases List.mem_cons.mp hx with hx | hx
    · exact ⟨"", String.join rest, by rw [strJoinCons, hx, String.empty_append]⟩
    · obtain ⟨p, q, hpq⟩ := ih x hx
      exact ⟨a ++ p, q,
        by rw [strJoinCons, hpq, String.append_assoc, String.append_assoc, String.append_assoc]⟩

/-- Claim C9: the carry-forward content never consults the filter rules —
it is identical for any two rule lists — and a visited file found in the
prior mapping keeps its record in the rewritten fingerprint file even when
the rules would exclude its path. -/
theorem listFileInfo_carry_ignores_filters (sep : Char) (sizeOf : String → Nat)
    (rootPath : String) (hashMap : List (String × String)) (files : List String) :
    (∀ filters₁ filters₂ : List Filter,
      (listFileInfo sep filters₁ sizeOf rootPath hashMap files).trimmedHashs =
      (listFileInfo sep filters₂ sizeOf rootPath hashMap files).trimmedHashs)
    ∧ (∀ (filters : List Filter) (file : String) (h : String), file ∈ files →
        hashMap.lookup (initNormPath sep rootPath file) = some h →
        ∃ p q, (listFileInfo sep filters sizeOf rootPath hashMap files).trimmedHashs =
          p ++ (initNormPath sep rootPath file ++ ":" ++ h ++ "\n") ++ q) := by
  constructor
  · intro filters₁ filters₂
    rw [listFileInfo, listFileInfo_foldl_trimmed, listFileInfo, listFileInfo_foldl_trimmed]
  · intro filters file h hmem hl
    have hrec : (initNormPath sep rootPath file ++ ":" ++ h ++ "\n") ∈
        specCarryRecords sep rootPath hashMap files := by
      rw [specCarryRecords]
      exact List.mem_filterMap.mpr ⟨file, hmem, by simp [hl]⟩
    obtain ⟨p, q, hpq⟩ := join_split_of_mem _ _ hrec
    refine ⟨p, q, ?_⟩
    rw [listFileInfo, listFileInfo_foldl_trimmed]
    simpa using hpq

/-- Witness for C9: with a rule list excluding everything, the previously
recorded file `r/a` is still carried forward. -/
theorem listFileInfo_carry_ignores_filters_witness :
    ("r/a" ∈ ["r/a", "r/b"]) ∧
    ([(("a", "h1") : String × String)].lookup (initNormPath '/' "r" "r/a") = some "h1") ∧
    (∃ p q, (listFileInfo '/' [⟨fun _ => true, false⟩] (fun _ => 5) "r"
        [("a", "h1")] ["r/a", "r/b"]).trimmedHashs =
      p ++ (initNormPath '/' "r" "r/a" ++ ":" ++ "h1" ++ "\n") ++ q) := by
  refine ⟨by decide, by decide, ?_⟩
  exact (listFileInfo_carry_ignores_filters '/' (fun _ => 5) "r" [("a", "h1")]
    ["r/a", "r/b"]).2 [⟨fun _ => true, false⟩] "r/a" "h1" (by decide) (by decide)

theorem hashLoop_lines_closed : ∀ (files : List HashJob) (pi : ProgressInfo),
    (hashLoop pi files).lines = files.filterMap (fun f =>
      if f.opened && f.readOk then some (f.normPath ++ ":" ++ f.digest ++ "\n") else none) := by
  intro files
  induction files with
  | nil => intro pi; rfl
  | cons f rest ih =>
    intro pi
    rw [hashLoop, List.filterMap_cons]
    cases ho : f.opened with
    | false => simp [calcHash, ho, ih]
    | true =>
      cases hr : f.readOk with
      | false => simp [calcHash, ho, hr, ih]
      | true => simp [calcHash, ho, hr, ih]

theorem hashLoop_logs_closed : ∀ (files : List HashJob) (pi : ProgressInfo),
    (hashLoop pi files).logs = files.flatMap (fun f =>
      if f.opened then
        (if f.readOk then [] else ["ハッシュ計算中にエラーが発生しました。: " ++ f.realPath])
      else ["ハッシュ対象ファイルの読み込みに失敗しました。: " ++ f.realPath,
            "ハッシュ計算中にエラーが発生しました。: " ++ f.realPath]) := by
  intro files
  induction files with
  | nil => intro pi; rfl
  | cons f rest ih =>
    intro pi
    rw [hashLoop, List.flatMap_cons]
    cases ho : f.opened with
    | false => simp [calcHash, ho, ih]
    | true =>
      cases hr : f.readOk with
      | false => simp [calcHash, ho, hr, ih]
      | true => simp [calcHash, ho, hr, ih]

theorem hashLoop_final_counts : ∀ (files : List HashJob) (pi : ProgressInfo),
    (hashLoop pi files).finalInfo.fileCount.processed =
      pi.fileCount.processed + files.length ∧
    (hashLoop pi files).finalInfo.sizeCount.processed =
      pi.sizeCount.processed + (files.map HashJob.size).sum := by
  intro files
  induction files with
  | nil => intro pi; exact ⟨rfl, rfl⟩
  | cons f rest ih =>
    intro pi
    rw [hashLoop]
    constructor
    · rw [(ih _).1]
      simp [ProgressCount.Increment, List.length_cons]
      omega
    · rw [(ih _).2]
      simp [ProgressCount.Increment, List.map_cons, List.sum_cons]
      omega

/-- Claim C6: a queued file that cannot be opened produces no fingerprint
line yet still advances the processed-files counter by one and the
processed-bytes counter by its size, is logged, and the worker continues
with the remaining files (its output over the other files is unchanged). -/
theorem hashRoutine_soft_failure (pre post : List HashJob) (f : HashJob) (totalSize : Nat)
    (hopen : f.opened = false) :
    (hashRoutine (pre ++ f :: post) totalSize).lines =
      (hashRoutine (pre ++ post) totalSize).lines
    ∧ (hashRoutine (pre ++ f :: post) totalSize).finalInfo.fileCount.processed =
        pre.length + 1 + post.length
    ∧ (hashRoutine (pre ++ f :: post) totalSize).finalInfo.sizeCount.processed =
        ((pre ++ f :: post).map HashJob.size).sum
    ∧ ("ハッシュ対象ファイルの読み込みに失敗しました。: " ++ f.realPath) ∈
        (hashRoutine (pre ++ f :: post) totalSize).logs := by
  refine ⟨?_, ?_, ?_, ?_⟩
  · show (hashLoop _ (pre ++ f :: post)).lines = (hashLoop _ (pre ++ post)).lines
    rw [hashLoop_lines_closed, hashLoop_lines_closed, List.filterMap_append,
      List.filterMap_append, List.filterMap_cons]
    simp [hopen]
  · show (hashLoop _ (pre ++ f :: post)).finalInfo.fileCount.processed = _
    rw [(hashLoop_final_counts (pre ++ f :: post) _).1]
    simp [List.length_append, List.length_cons]
    omega
  · show (hashLoop _ (pre ++ f :: post)).finalInfo.sizeCount.processed = _
    rw [(hashLoop_final_counts (pre ++ f :: post) _).2]
    simp
  · show _ ∈ (hashLoop _ (pre ++ f :: post)).logs
    rw [hashLoop_logs_closed]
    refine List.mem_flatMap.mpr ⟨f, ?_, ?_⟩
    · exact List.mem_append_right pre (List.mem_cons_self f post)
    · simp [hopen]

/-- Witness for C6: a one-file disk whose file cannot be opened still ends
with counters 1 file / 7 bytes, an empty line list, and the failure log. -/
theorem hashRoutine_soft_failure_witness :
    (HashJob.mk "p" "n" 7 false [] true "d").opened = false ∧
    ((hashRoutine [HashJob.mk "p" "n" 7 false [] true "d"] 7).lines = ([] : List String)
    ∧ (hashRoutine [HashJob.mk "p" "n" 7 false [] true "d"] 7).finalInfo.fileCount.processed = 1
    ∧ (hashRoutine [HashJob.mk "p" "n" 7 false [] true "d"] 7).finalInfo.sizeCount.processed = 7
    ∧ ("ハッシュ対象ファイルの読み込みに失敗しました。: " ++ "p") ∈
        (hashRoutine [HashJob.mk "p" "n" 7 false [] true "d"] 7).logs) :=
  ⟨rfl, hashRoutine_soft_failure [] [] (HashJob.mk "p" "n" 7 false [] true "d") 7 rfl⟩

/-- A snapshot with `n` more processed bytes. -/
def addSize (pi : ProgressInfo) (n : Nat) : ProgressInfo :=
  { pi with sizeCount := pi.sizeCount.Increment n }

/-- Ordering of two snapshots by the processed-files counter alone. -/
def fileCountLE (a b : ProgressInfo) : Prop :=
  a.fileCount.processed ≤ b.fileCount.processed

theorem countsLE_refl (a : ProgressInfo) : countsLE a a := ⟨le_refl _, le_refl _⟩

theorem countsLE_trans {a b c : ProgressInfo} (h1 : countsLE a b) (h2 : countsLE b c) :
    countsLE a c := ⟨h1.1.trans h2.1, h1.2.trans h2.2⟩

theorem addSize_zero (pi : ProgressInfo) : addSize pi 0 = pi := by
  simp [addSize, ProgressCount.Increment]

theorem addSize_addSize (pi : ProgressInfo) (a b : Nat) :
    addSize (addSize pi a) b = addSize pi (a + b) := by
  simp [addSize, ProgressCount.Increment, Nat.add_assoc]

theorem countsLE_addSize (pi : ProgressInfo) (n : Nat) : countsLE pi (addSize pi n) :=
  ⟨le_refl _, Nat.le_add_right _ _⟩

theorem calcHashSnaps_cons (pi : ProgressInfo) (c : Nat) (rest : List Nat) :
    calcHashSnaps pi (c :: rest) = addSize pi c :: calcHashSnaps (addSize pi c) rest := rfl

theorem calcHashSnaps_getLast : ∀ (chunks : List Nat) (pi : ProgressInfo),
    (pi :: calcHashSnaps pi chunks).getLast? = some (addSize pi chunks.sum) := by
  intro chunks
  induction chunks with
  | nil => intro pi; rw [List.sum_nil, addSize_zero]; rfl
  | cons c rest ih =>
    intro pi
    rw [calcHashSnaps_cons, List.getLast?_cons_cons, ih (addSize pi c), addSize_addSize,
      List.sum_cons]

theorem calcHashSnaps_chain : ∀ (chunks : List Nat) (pi q : ProgressInfo),
    countsLE q pi → List.Chain' countsLE (q :: calcHashSnaps pi chunks) := by
  intro chunks
  induction chunks with
  | nil => intro pi q _; exact List.chain'_singleton q
  | cons c rest ih =>
    intro pi q hq
    rw [calcHashSnaps_cons]
    exact List.chain'_cons.mpr
      ⟨countsLE_trans hq (countsLE_addSize pi c), ih (addSize pi c) (addSize pi c) (countsLE_refl _)⟩

theorem calcHashSnaps_chain_file : ∀ (chunks : List Nat) (pi q : ProgressInfo),
    fileCountLE q pi → List.Chain' fileCountLE (q :: calcHashSnaps pi chunks) := by
  intro chunks
  induction chunks with
  | nil => intro pi q _; exact List.chain'_singleton q
  | cons c rest ih =>
    intro pi q hq
    rw [calcHashSnaps_cons]
    exact List.chain'_cons.mpr ⟨hq, ih (addSize pi c) (addSize pi c) (le_refl _)⟩

theorem hashLoop_snaps_cons (pi : ProgressInfo) (f : HashJob) (rest : List HashJob) :
    (hashLoop pi (f :: rest)).snaps = (calcHash f pi).1 ++
      (hashLoop { pi with fileCount := pi.fileCount.Increment 1,
                          sizeCount := pi.sizeCount.Increment f.size } rest).snaps := rfl

theorem hashLoop_final_cons (pi : ProgressInfo) (f : HashJob) (rest : List HashJob) :
    (hashLoop pi (f :: rest)).finalInfo =
      (hashLoop { pi with fileCount := pi.fileCount.Increment 1,
                          sizeCount := pi.sizeCount.Increment f.size } rest).finalInfo := rfl

theorem hashRoutine_snaps (files : List HashJob) (totalSize : Nat) :
    (hashRoutine files totalSize).snaps =
      (⟨⟨totalSize, 0⟩, ⟨files.length, 0⟩, ""⟩ : ProgressInfo) ::
        (hashLoop ⟨⟨totalSize, 0⟩, ⟨files.length, 0⟩, ""⟩ files).snaps ++
        [(hashLoop ⟨⟨totalSize, 0⟩, ⟨files.length, 0⟩, ""⟩ files).finalInfo] := rfl

theorem calcHash_fst_opened (f : HashJob) (pi : ProgressInfo) (ho : f.opened = true) :
    (calcHash f pi).1 = calcHashSnaps { pi with processingFile := f.realPath } f.chunks := by
  rw [calcHash, if_pos ho]

theorem calcHash_fst_closed (f : HashJob) (pi : ProgressInfo) (ho : ¬ f.opened = true) :
    (calcHash f pi).1 = [] := by
  rw [calcHash, if_neg ho]

theorem calcHash_last_le (f : HashJob) (pi z : ProgressInfo)
    (hq : countsLE pi z) (hsum : countsLE (addSize pi f.chunks.sum) z) :
    ∀ x ∈ (pi :: (calcHash f pi).1).getLast?, countsLE x z := by
  intro x hx
  by_cases ho : f.opened = true
  · rw [calcHash_fst_opened f pi ho] at hx
    cases hc : f.chunks with
    | nil =>
      rw [hc] at hx
      simp only [calcHashSnaps, List.getLast?_singleton, Option.mem_def,
        Option.some.injEq] at hx
      rw [← hx]
      exact hq
    | cons c cs =>
      rw [hc, calcHashSnaps_cons, List.getLast?_cons_cons,
        calcHashSnaps_getLast cs (addSize _ c), addSize_addSize] at hx
      simp only [Option.mem_def, Option.some.injEq] at hx
      rw [← hx]
      refine countsLE_trans ⟨?_, ?_⟩ hsum
      · exact le_refl _
      · show pi.sizeCount.processed + (c + cs.sum) ≤ pi.sizeCount.processed + f.chunks.sum
        rw [hc, List.sum_cons]
  · rw [calcHash_fst_closed f pi ho] at hx
    simp only [List.getLast?_singleton, Option.mem_def, Option.some.injEq] at hx
    rw [← hx]
    exact hq

theorem hashLoop_chain_counts : ∀ (files : List HashJob) (pi : ProgressInfo),
    (∀ f ∈ files, f.chunks.sum ≤ f.size) →
    List.Chain' countsLE (pi :: (hashLoop pi files).snaps ++ [(hashLoop pi files).finalInfo]) := by
  intro files
  induction files with
  | nil =>
    intro pi _
    exact List.chain'_cons.mpr ⟨countsLE_refl pi, List.chain'_singleton pi⟩
  | cons f rest ih =>
    intro pi h
    have hf : f.chunks.sum ≤ f.size := h f (List.mem_cons_self f rest)
    have hrest := ih { pi with fileCount := pi.fileCount.Increment 1,
                               sizeCount := pi.sizeCount.Increment f.size }
      (fun x hx => h x (List.mem_cons_of_mem f hx))
    rw [hashLoop_snaps_cons, hashLoop_final_cons]
    have hsplit : pi :: ((calcHash f pi).1 ++
        (hashLoop { pi with fileCount := pi.fileCount.Increment 1,
                            sizeCount := pi.sizeCount.Increment f.size } rest).snaps) ++
        [(hashLoop { pi with fileCount := pi.fileCount.Increment 1,
                             sizeCount := pi.sizeCount.Increment f.size } rest).finalInfo] =
        (pi :: (calcHash f pi).1) ++
        ((hashLoop { pi with fileCount := pi.fileCount.Increment 1,
                             sizeCount := pi.sizeCount.Increment f.size } rest).snaps ++
         [(hashLoop { pi with fileCount := pi.fileCount.Increment 1,
                              sizeCount := pi.sizeCount.Increment f.size } rest).finalInfo]) := by
      rw [List.cons_append, List.append_assoc, List.cons_append]
    rw [hsplit]
    have hlink := (List.chain'_cons'.mp hrest).1
    have hchainB := List.Chain'.tail hrest
    refine List.chain'_append.mpr ⟨?_, by simpa using hchainB, ?_⟩
    · by_cases ho : f.opened = true
      · rw [calcHash_fst_opened f pi ho]
        exact calcHashSnaps_chain f.chunks _ pi ⟨le_refl _, le_refl _⟩
      · rw [calcHash_fst_closed f pi ho]
        exact List.chain'_singleton pi
    · intro x hx y hy
      have hxle : countsLE x { pi with fileCount := pi.fileCount.Increment 1,
                                       sizeCount := pi.sizeCount.Increment f.size } := by
        refine calcHash_last_le f pi _ ⟨Nat.le_add_right _ _, Nat.le_add_right _ _⟩ ?_ x hx
        exact ⟨Nat.le_add_right _ _, Nat.add_le_add_left hf _⟩
      exact countsLE_trans hxle (hlink y hy)

theorem calcHash_last_file (f : HashJob) (pi z : ProgressInfo)
    (hq : fileCountLE pi z) :
    ∀ x ∈ (pi :: (calcHash f pi).1).getLast?, fileCountLE x z := by
  intro x hx
  by_cases ho : f.opened = true
  · rw [calcHash_fst_opened f pi ho] at hx
    cases hc : f.chunks with
    | nil =>
      rw [hc] at hx
      simp only [calcHashSnaps, List.getLast?_singleton, Option.mem_def,
        Option.some.injEq] at hx
      rw [← hx]
      exact hq
    | cons c cs =>
      rw [hc, calcHashSnaps_cons, List.getLast?_cons_cons,
        calcHashSnaps_getLast cs (addSize _ c), addSize_addSize] at hx
      simp only [Option.mem_def, Option.some.injEq] at hx
      rw [← hx]
      exact hq
  · rw [calcHash_fst_closed f pi ho] at hx
    simp only [List.getLast?_singleton, Option.mem_def, Option.some.injEq] at hx
    rw [← hx]
    exact hq

theorem hashLoop_chain_file : ∀ (files : List HashJob) (pi : ProgressInfo),
    List.Chain' fileCountLE
      (pi :: (hashLoop pi files).snaps ++ [(hashLoop pi files).finalInfo]) := by
  intro files
  induction files with
  | nil =>
    intro pi
    exact List.chain'_cons.mpr ⟨le_refl _, List.chain'_singleton pi⟩
  | cons f rest ih =>
    intro pi
    have hrest := ih { pi with fileCount := pi.fileCount.Increment 1,
                               sizeCount := pi.sizeCount.Increment f.size }
    rw [hashLoop_snaps_cons, hashLoop_final_cons]
    have hsplit : pi :: ((calcHash f pi).1 ++
        (hashLoop { pi with fileCount := pi.fileCount.Increment 1,
                            sizeCount := pi.sizeCount.Increment f.size } rest).snaps) ++
        [(hashLoop { pi with fileCount := pi.fileCount.Increment 1,
                             sizeCount := pi.sizeCount.Increment f.size } rest).finalInfo] =
        (pi :: (calcHash f pi).1) ++
        ((hashLoop { pi with fileCount := pi.fileCount.Increment 1,
                             sizeCount := pi.sizeCount.Increment f.size } rest).snaps ++
         [(hashLoop { pi with fileCount := pi.fileCount.Increment 1,
                              sizeCount := pi.sizeCount.Increment f.size } rest).finalInfo]) := by
      rw [List.cons_append, List.append_assoc, List.cons_append]
    rw [hsplit]
    have hlink := (List.chain'_cons'.mp hrest).1
    have hchainB := List.Chain'.tail hrest
    refine List.chain'_append.mpr ⟨?_, by simpa using hchainB, ?_⟩
    · by_cases ho : f.opened = true
      · rw [calcHash_fst_opened f pi ho]
        exact calcHashSnaps_chain_file f.chunks _ pi (le_refl _)
      · rw [calcHash_fst_closed f pi ho]
        exact List.chain'_singleton pi
    · intro x hx y hy
      have hxle := calcHash_last_file f pi
        { pi with fileCount := pi.fileCount.Increment 1,
                  sizeCount := pi.sizeCount.Increment f.size }
        (Nat.le_add_right _ _) x hx
      exact hxle.trans (hlink y hy)

/-- Claim C7 (amended): within one run the processed-files counter never
decreases across a disk worker's successive snapshots; the processed-bytes
counter never decreases provided no queued file's bytes read during hashing
exceed its recorded size (no file grows between sizing and hashing). -/
theorem hashRoutine_progress_monotone (files : List HashJob) (totalSize : Nat) :
    List.Chain' fileCountLE (hashRoutine files totalSize).snaps
    ∧ ((∀ f ∈ files, f.chunks.sum ≤ f.size) →
       List.Chain' countsLE (hashRoutine files totalSize).snaps) := by
  constructor
  · rw [hashRoutine_snaps]
    exact hashLoop_chain_file files _
  · intro h
    rw [hashRoutine_snaps]
    exact hashLoop_chain_counts files _ h

/-- Witness for C7 (amended): a two-chunk file read in full (4+6 bytes of a
10-byte file) yields monotone snapshots. -/
theorem hashRoutine_progress_monotone_witness :
    (∀ f ∈ [HashJob.mk "p" "n" 10 true [4, 6] true "d"], f.chunks.sum ≤ f.size) ∧
    List.Chain' countsLE (hashRoutine [HashJob.mk "p" "n" 10 true [4, 6] true "d"] 10).snaps :=
  ⟨by decide,
   (hashRoutine_progress_monotone [HashJob.mk "p" "n" 10 true [4, 6] true "d"] 10).2 (by decide)⟩

/-- Counterexample to C7 as stated: if a queued file recorded with size 10
delivers a 1000-byte chunk while being hashed (it grew after sizing), the
worker's final snapshot drops the processed-bytes counter from 1000 back to
10, so the snapshot sequence is not monotone. -/
theorem hashRoutine_progress_not_monotone :
    ¬ List.Chain' countsLE
      (hashRoutine [HashJob.mk "p" "n" 10 true [1000] true "d"] 10).snaps := by
  intro hc
  exact absurd ((monotoneSnaps_iff _).mpr hc) (by decide)

theorem hashFileGroupChars_cons (c : Char) (r : List Char) :
    hashFileGroupChars (c :: r) =
      if isUpperLetter c && !r.isEmpty && r.all isDigitChar then some c else none := rfl

theorem mergeStep_of_none (m : List (Char × List String)) (nf : String × List String)
    (h : hashFileGroup nf.1 = none) : mergeStep m nf = m := by
  rw [mergeStep, h]

theorem mergeStep_of_some (m : List (Char × List String)) (nf : String × List String)
    (g : Char) (h : hashFileGroup nf.1 = some g) :
    mergeStep m nf = updateAssoc m g (((m.lookup g).getD []) ++ readFileLines nf.2) := by
  rw [mergeStep, h]

theorem foldl_mergeStep_skip : ∀ (extra : List (String × List String))
    (m : List (Char × List String)), (∀ nf ∈ extra, hashFileGroup nf.1 = none) →
    extra.foldl mergeStep m = m := by
  intro extra
  induction extra with
  | nil => intro m _; rfl
  | cons nf rest ih =>
    intro m h
    rw [List.foldl_cons, mergeStep_of_none m nf (h nf (List.mem_cons_self nf rest))]
    exact ih m (fun x hx => h x (List.mem_cons_of_mem nf hx))

theorem hashFileGroup_upper (n : String) (g : Char) (h : hashFileGroup n = some g) :
    isUpperLetter g = true := by
  rw [hashFileGroup] at h
  cases hd : n.data with
  | nil => rw [hd] at h; exact absurd h (by simp [hashFileGroupChars])
  | cons c r =>
    rw [hd, hashFileGroupChars_cons] at h
    by_cases hcond : (isUpperLetter c && !r.isEmpty && r.all isDigitChar) = true
    · rw [if_pos hcond] at h
      have hc : c = g := Option.some.inj h
      rw [← hc]
      rw [Bool.and_assoc, Bool.and_eq_true] at hcond
      exact hcond.1
    · rw [if_neg hcond] at h
      exact absurd h (by simp)

theorem mem_updateAssoc : ∀ (m : List (Char × List String)) (g : Char) (v : List String)
    (p : Char × List String), p ∈ updateAssoc m g v → p.1 = g ∨ p ∈ m := by
  intro m
  induction m with
  | nil =>
    intro g v p hp
    rw [updateAssoc] at hp
    rcases List.mem_singleton.mp hp with h
    exact Or.inl (by rw [h])
  | cons kw rest ih =>
    intro g v p hp
    cases kw with
    | mk k w =>
      rw [updateAssoc] at hp
      by_cases hk : k = g
      · rw [if_pos hk] at hp
        rcases List.mem_cons.mp hp with h | h
        · exact Or.inl (by rw [h, hk])
        · exact Or.inr (List.mem_cons_of_mem _ h)
      · rw [if_neg hk] at hp
        rcases List.mem_cons.mp hp with h | h
        · exact Or.inr (by rw [h]; exact List.mem_cons_self _ _)
        · rcases ih g v p h with h2 | h2
          · exact Or.inl h2
          · exact Or.inr (List.mem_cons_of_mem _ h2)

theorem foldl_mergeStep_keys : ∀ (files : List (String × List String))
    (m : List (Char × List String)), (∀ p ∈ m, isUpperLetter p.1 = true) →
    ∀ p ∈ files.foldl mergeStep m, isUpperLetter p.1 = true := by
  intro files
  induction files with
  | nil => intro m h p hp; exact h p hp
  | cons nf rest ih =>
    intro m h p hp
    rw [List.foldl_cons] at hp
    rcases hg : hashFileGroup nf.1 with _ | g
    · rw [mergeStep_of_none m nf hg] at hp
      exact ih m h p hp
    · rw [mergeStep_of_some m nf g hg] at hp
      refine ih _ ?_ p hp
      intro q hq
      rcases mem_updateAssoc m g _ q hq with h2 | h2
      · rw [h2]; exact hashFileGroup_upper nf.1 g hg
      · exact h q h2

/-- Claim C10: the merge consumes only files whose base name is a single
uppercase letter followed by digits; a merged group file's single-letter
name never matches, so merge output is never fed back as merge input and
re-running the merge over unchanged disk files is idempotent. -/
theorem executeHashFileIntegration_no_feedback :
    (∀ c : Char, isUpperLetter c = true → hashFileGroup (String.mk [c]) = none)
    ∧ (∀ (files₁ files₂ : List (String × List String)) (n : String) (ls : List String),
        hashFileGroup n = none →
        executeHashFileIntegration (files₁ ++ (n, ls) :: files₂) =
          executeHashFileIntegration (files₁ ++ files₂))
    ∧ (∀ files : List (String × List String),
        executeHashFileIntegration (files ++
          (executeHashFileIntegration files).map (fun p => (String.mk [p.1], p.2))) =
        executeHashFileIntegration files) := by
  have hsingle : ∀ c : Char, hashFileGroup (String.mk [c]) = none := by
    intro c
    rw [hashFileGroup, show (String.mk [c]).data = [c] from rfl, hashFileGroupChars_cons]
    simp
  refine ⟨fun c _ => hsingle c, ?_, ?_⟩
  · intro files₁ files₂ n ls h
    rw [executeHashFileIntegration, executeHashFileIntegration, mergeCollect, mergeCollect,
      List.foldl_append, List.foldl_append, List.foldl_cons, mergeStep_of_none _ _ h]
  · intro files
    rw [executeHashFileIntegration, executeHashFileIntegration, mergeCollect, mergeCollect,
      List.foldl_append]
    rw [foldl_mergeStep_skip _ _ ?_]
    intro nf hnf
    rcases List.mem_map.mp hnf with ⟨p, _, hp⟩
    rw [← hp]
    exact hsingle p.1

/-- Witness for C10: the name `A` (one letter, no digits) is rejected by the
hash-file pattern, the stray file `("A", ...)` is ignored by the merge, and
merging again with the previous output present changes nothing. -/
theorem executeHashFileIntegration_no_feedback_witness :
    isUpperLetter 'A' = true ∧
    hashFileGroup (String.mk ['A']) = none ∧
    hashFileGroup "A" = none ∧
    executeHashFileIntegration ([("A1", ["x:111"])] ++ ("A", ["x:111"]) :: []) =
      executeHashFileIntegration ([("A1", ["x:111"])] ++ []) ∧
    executeHashFileIntegration ([("A1", ["x:111"])] ++
        (executeHashFileIntegration [("A1", ["x:111"])]).map
          (fun p => (String.mk [p.1], p.2))) =
      executeHashFileIntegration [("A1", ["x:111"])] :=
  ⟨by decide,
   executeHashFileIntegration_no_feedback.1 'A' (by decide),
   by decide,
   executeHashFileIntegration_no_feedback.2.1 [("A1", ["x:111"])] [] "A" ["x:111"] (by decide),
   executeHashFileIntegration_no_feedback.2.2 [("A1", ["x:111"])]⟩

theorem lexLeChars_nil_left (l : List Char) : lexLeChars [] l = true := rfl

theorem lexLeChars_cons_nil (a : Char) (as : List Char) : lexLeChars (a :: as) [] = false := rfl

theorem lexLeChars_cons (a b : Char) (as bs : List Char) :
    lexLeChars (a :: as) (b :: bs) =
      if a = b then lexLeChars as bs else decide (a < b) := rfl

theorem lexLeChars_trans : ∀ (as bs cs : List Char), lexLeChars as bs = true →
    lexLeChars bs cs = true → lexLeChars as cs = true := by
  intro as
  induction as with
  | nil => intro bs cs _ _; rfl
  | cons a as ih =>
    intro bs cs h1 h2
    cases bs with
    | nil => exact absurd h1 (by rw [lexLeChars_cons_nil]; exact Bool.false_ne_true)
    | cons b bs =>
      cases cs with
      | nil => exact absurd h2 (by rw [lexLeChars_cons_nil]; exact Bool.false_ne_true)
      | cons c cs =>
        rw [lexLeChars_cons] at h1 h2 ⊢
        by_cases hab : a = b
        · rw [if_pos hab] at h1
          by_cases hbc : b = c
          · rw [if_pos hbc] at h2
            rw [if_pos (hab.trans hbc)]
            exact ih bs cs h1 h2
          · rw [if_neg hbc] at h2
            have hlt : b < c := of_decide_eq_true h2
            rw [hab]
            rw [if_neg (ne_of_lt hlt)]
            exact decide_eq_true hlt
        · rw [if_neg hab] at h1
          have hltab : a < b := of_decide_eq_true h1
          by_cases hbc : b = c
          · rw [← hbc, if_neg hab]
            exact h1
          · rw [if_neg hbc] at h2
            have hltbc : b < c := of_decide_eq_true h2
            have hltac : a < c := lt_trans hltab hltbc
            rw [if_neg (ne_of_lt hltac)]
            exact decide_eq_true hltac

theorem lexLeChars_total : ∀ (as bs : List Char),
    lexLeChars as bs = true ∨ lexLeChars bs as = true := by
  intro as
  induction as with
  | nil => intro bs; exact Or.inl rfl
  | cons a as ih =>
    intro bs
    cases bs with
    | nil => exact Or.inr rfl
    | cons b bs =>
      rw [lexLeChars_cons, lexLeChars_cons]
      by_cases hab : a = b
      · rw [if_pos hab, if_pos hab.symm]
        exact ih bs
      · rw [if_neg hab, if_neg (Ne.symm hab)]
        rcases lt_or_gt_of_ne hab with h | h
        · exact Or.inl (decide_eq_true h)
        · exact Or.inr (decide_eq_true h)

instance : IsTrans String (fun a b : String => lexLe a b = true) :=
  ⟨fun a b c h1 h2 => lexLeChars_trans a.data b.data c.data h1 h2⟩

instance : IsTotal String (fun a b : String => lexLe a b = true) :=
  ⟨fun a b => lexLeChars_total a.data b.data⟩

theorem lookup_updateAssoc_self : ∀ (m : List (Char × List String)) (g : Char)
    (v : List String), (updateAssoc m g v).lookup g = some v := by
  intro m
  induction m with
  | nil => intro g v; simp [updateAssoc, List.lookup]
  | cons kw rest ih =>
    intro g v
    cases kw with
    | mk k w =>
      rw [updateAssoc]
      by_cases hk : k = g
      · rw [if_pos hk]
        simp [List.lookup, hk]
      · rw [if_neg hk]
        rw [List.lookup]
        have : (g == k) = false := by
          simp
          exact fun h => hk h.symm
        rw [this]
        exact ih g v

theorem lookup_updateAssoc_ne : ∀ (m : List (Char × List String)) (g : Char)
    (v : List String) (g' : Char), g' ≠ g → (updateAssoc m g v).lookup g' = m.lookup g' := by
  intro m
  induction m with
  | nil =>
    intro g v g' hne
    rw [updateAssoc, List.lookup, List.lookup]
    rw [beq_eq_false_iff_ne.mpr hne]
    rfl
  | cons kw rest ih =>
    intro g v g' hne
    cases kw with
    | mk k w =>
      rw [updateAssoc]
      by_cases hk : k = g
      · rw [if_pos hk]
        rw [List.lookup, List.lookup]
        have hb : (g' == k) = false := by
          rw [beq_eq_false_iff_ne]
          rw [hk]
          exact hne
        rw [hb]
      · rw [if_neg hk]
        rw [List.lookup, List.lookup]
        cases hgk : (g' == k) with
        | true => rfl
        | false => exact ih g v g' hne

theorem specGroupLines_cons_skip (nf : String × List String)
    (fs : List (String × List String)) (g : Char) (h : hashFileGroup nf.1 ≠ some g) :
    specGroupLines (nf :: fs) g = specGroupLines fs g := by
  simp [specGroupLines, List.filterMap_cons, h]

theorem specGroupLines_cons_hit (nf : String × List String)
    (fs : List (String × List String)) (g : Char) (h : hashFileGroup nf.1 = some g) :
    specGroupLines (nf :: fs) g = readFileLines nf.2 ++ specGroupLines fs g := by
  simp [specGroupLines, List.filterMap_cons, h]

theorem foldl_mergeStep_lookup : ∀ (files : List (String × List String))
    (m : List (Char × List String)) (g : Char),
    (files.foldl mergeStep m).lookup g =
      (match m.lookup g with
       | some v => some (v ++ specGroupLines files g)
       | none =>
         if files.any (fun nf => hashFileGroup nf.1 == some g) then
           some (specGroupLines files g)
         else none) := by
  intro files
  induction files with
  | nil =>
    intro m g
    rw [List.foldl_nil]
    cases hm : m.lookup g with
    | none => simp [specGroupLines]
    | some v => simp [specGroupLines]
  | cons nf fs ih =>
    intro m g
    rw [List.foldl_cons]
    rcases hg : hashFileGroup nf.1 with _ | g'
    · rw [mergeStep_of_none m nf hg, ih m g,
        specGroupLines_cons_skip nf fs g (by rw [hg]; simp)]
      have hany : ((nf :: fs).any (fun x => hashFileGroup x.1 == some g)) =
          fs.any (fun x => hashFileGroup x.1 == some g) := by
        simp [List.any_cons, hg]
      rw [hany]
    · by_cases hgg : g' = g
      · subst hgg
        rw [mergeStep_of_some m nf g' hg, ih _ g', lookup_updateAssoc_self,
          specGroupLines_cons_hit nf fs g' hg]
        cases hm : m.lookup g' with
        | some v => simp [hm, List.append_assoc]
        | none => simp [hm, List.any_cons, hg]
      · rw [mergeStep_of_some m nf g' hg, ih _ g,
          lookup_updateAssoc_ne _ g' _ g (fun k => hgg k.symm),
          specGroupLines_cons_skip nf fs g (by rw [hg]; simp [hgg])]
        have hany : ((nf :: fs).any (fun x => hashFileGroup x.1 == some g)) =
            fs.any (fun x => hashFileGroup x.1 == some g) := by
          simp [List.any_cons, hg, hgg]
        rw [hany]

theorem lookup_map_sortStrings : ∀ (m : List (Char × List String)) (g : Char),
    ((m.map (fun p => (p.1, sortStrings p.2))).lookup g) = (m.lookup g).map sortStrings := by
  intro m
  induction m with
  | nil => intro g; rfl
  | cons kw rest ih =>
    intro g
    cases kw with
    | mk k w =>
      rw [List.map_cons, List.lookup, List.lookup]
      cases hgk : (g == k) with
      | true => rfl
      | false => exact ih g

/-- Claim C5 (amended): the merge groups files by the letter of names
matching the hash-file pattern, concatenates all non-empty lines of each
group's files, sorts them in byte-lexicographic order preserving duplicate
lines, and rebuilds each group's output from scratch; the group `A` built
from disks `A1` (`x:111`) and `A2` (`y:222`) is exactly the sorted union. -/
theorem executeHashFileIntegration_sorted_merge :
    (∀ (files : List (String × List String)) (g : Char),
      (executeHashFileIntegration files).lookup g =
        if files.any (fun nf => hashFileGroup nf.1 == some g) then
          some (sortStrings (specGroupLines files g))
        else none)
    ∧ (∀ (files : List (String × List String)) (g : Char) (ls : List String),
        (executeHashFileIntegration files).lookup g = some ls →
        ls.Perm (specGroupLines files g) ∧
        List.Pairwise (fun a b => lexLe a b = true) ls)
    ∧ executeHashFileIntegration [("A1", ["x:111"]), ("A2", ["y:222"])] =
        [('A', ["x:111", "y:222"])] := by
  have hmain : ∀ (files : List (String × List String)) (g : Char),
      (executeHashFileIntegration files).lookup g =
        if files.any (fun nf => hashFileGroup nf.1 == some g) then
          some (sortStrings (specGroupLines files g))
        else none := by
    intro files g
    rw [executeHashFileIntegration, lookup_map_sortStrings, mergeCollect,
      foldl_mergeStep_lookup files [] g]
    cases hany : files.any (fun nf => hashFileGroup nf.1 == some g) with
    | true => simp [List.lookup, hany]
    | false => simp [List.lookup, hany]
  refine ⟨hmain, ?_, by decide⟩
  intro files g ls h
  rw [hmain files g] at h
  by_cases hany : files.any (fun nf => hashFileGroup nf.1 == some g) = true
  · rw [if_pos hany] at h
    have hls : ls = sortStrings (specGroupLines files g) := (Option.some.inj h).symm
    constructor
    · rw [hls, sortStrings]
      exact List.perm_insertionSort _ _
    · rw [hls, sortStrings]
      exact List.sorted_insertionSort _ _
  · rw [if_neg hany] at h
    exact absurd h (by simp)

/-- Witness for C5 (amended): the merged group `A` of the example two disks
is a sorted permutation of the concatenated non-empty lines. -/
theorem executeHashFileIntegration_sorted_merge_witness :
    (executeHashFileIntegration [("A1", ["x:111"]), ("A2", ["y:222"])]).lookup 'A' =
      some ["x:111", "y:222"] ∧
    (["x:111", "y:222"].Perm
      (specGroupLines [("A1", ["x:111"]), ("A2", ["y:222"])] 'A') ∧
     List.Pairwise (fun a b => lexLe a b = true) ["x:111", "y:222"]) :=
  ⟨by decide,
   executeHashFileIntegration_sorted_merge.2.1 [("A1", ["x:111"]), ("A2", ["y:222"])] 'A'
     ["x:111", "y:222"] (by decide)⟩

/-- Counterexample to C5 as stated: the merge loop skips empty lines, so a
group file containing an empty line is not merged as the sorted
concatenation of all its lines — the empty line is dropped. -/
theorem executeHashFileIntegration_drops_empty_lines :
    (executeHashFileIntegration [("A1", ["", "x:111"])]).lookup 'A' = some ["x:111"] ∧
    sortStrings ["", "x:111"] = ["", "x:111"] ∧
    some ["x:111"] ≠ some ["", "x:111"] := by
  exact ⟨by decide, by decide, by decide⟩

theorem nfcAux_none_cons (c : Char) (l : List Char) :
    nfcAux none (c :: l) = nfcAux (some c) l := rfl

theorem nfcAux_some_cons (p c : Char) (l : List Char) :
    nfcAux (some p) (c :: l) =
      (match composePair p c with
       | some pc => nfcAux (some pc) l
       | none => p :: nfcAux (some c) l) := rfl

theorem composePair_not_mark (q b : Char) (h1 : b ≠ combiningAcute)
    (h2 : b ≠ combiningDiaeresis) : composePair q b = none := by
  rw [composePair, if_neg (fun hh => h1 hh.2), if_neg (fun hh => h1 hh.2),
    if_neg (fun hh => h2 hh.2)]

theorem decomposeChar_spec (c : Char) :
    decomposeChar c = [c] ∨
    ∃ b m, decomposeChar c = [b, m] ∧ composePair b m = some c ∧
      (∀ q, composePair q b = none) ∧ (∀ q, composePair q c = none) := by
  by_cases h1 : c = Char.ofNat 0xE9
  · right
    refine ⟨'e', combiningAcute, ?_, ?_, ?_, ?_⟩
    · rw [decomposeChar, if_pos h1]
    · rw [composePair, if_pos ⟨rfl, rfl⟩, h1]
    · intro q; exact composePair_not_mark q 'e' (by decide) (by decide)
    · intro q; rw [h1]; exact composePair_not_mark q (Char.ofNat 0xE9) (by decide) (by decide)
  by_cases h2 : c = Char.ofNat 0xE1
  · right
    refine ⟨'a', combiningAcute, ?_, ?_, ?_, ?_⟩
    · rw [decomposeChar, if_neg h1, if_pos h2]
    · rw [composePair, if_neg (by decide), if_pos ⟨rfl, rfl⟩, h2]
    · intro q; exact composePair_not_mark q 'a' (by decide) (by decide)
    · intro q; rw [h2]; exact composePair_not_mark q (Char.ofNat 0xE1) (by decide) (by decide)
  by_cases h3 : c = Char.ofNat 0xF6
  · right
    refine ⟨'o', combiningDiaeresis, ?_, ?_, ?_, ?_⟩
    · rw [decomposeChar, if_neg h1, if_neg h2, if_pos h3]
    · rw [composePair, if_neg (by decide), if_neg (by decide), if_pos ⟨rfl, rfl⟩, h3]
    · intro q; exact composePair_not_mark q 'o' (by decide) (by decide)
    · intro q; rw [h3]; exact composePair_not_mark q (Char.ofNat 0xF6) (by decide) (by decide)
  · left
    rw [decomposeChar, if_neg h1, if_neg h2, if_neg h3]

theorem nfcAux_decomposeList : ∀ (l : List Char) (p : Option Char),
    nfcAux p (l.flatMap decomposeChar) = nfcAux p l := by
  intro l
  induction l with
  | nil => intro p; rfl
  | cons c l ih =>
    intro p
    rw [List.flatMap_cons]
    rcases decomposeChar_spec c with hdec | ⟨b, m, hdec, hcomp, hqb, hqc⟩
    · rw [hdec, List.singleton_append]
      cases p with
      | none =>
        rw [nfcAux_none_cons, nfcAux_none_cons]
        exact ih (some c)
      | some q =>
        rw [nfcAux_some_cons, nfcAux_some_cons]
        cases hqc2 : composePair q c with
        | some pc =>
          simp only [hqc2]
          exact ih (some pc)
        | none =>
          simp only [hqc2]
          exact congrArg (fun x => q :: x) (ih (some c))
    · rw [hdec, List.cons_append, List.singleton_append]
      cases p with
      | none =>
        rw [nfcAux_none_cons, nfcAux_some_cons, nfcAux_none_cons]
        simp only [hcomp]
        exact ih (some c)
      | some q =>
        rw [nfcAux_some_cons]
        simp only [hqb q]
        rw [nfcAux_some_cons]
        simp only [hcomp]
        rw [nfcAux_some_cons]
        simp only [hqc q]
        exact congrArg (fun x => q :: x) (ih (some c))

theorem startsWithList_append : ∀ (p q : List Char), startsWithList p (p ++ q) = true := by
  intro p
  induction p with
  | nil => intro q; rfl
  | cons a as ih =>
    intro q
    rw [List.cons_append, startsWithList]
    simp [ih]

theorem relPath_strip (sep : Char) (base : String) (tl : List Char) (targ : String)
    (ht : targ.data = base.data ++ sep :: tl) : relPath sep base targ = String.mk tl := by
  have hlist : base.data ++ sep :: tl = (base.data ++ [sep]) ++ tl := by
    rw [List.append_assoc, List.singleton_append]
  have hpre : startsWithList (base.data ++ [sep]) targ.data = true := by
    rw [ht, hlist]
    exact startsWithList_append _ _
  rw [relPath, if_pos hpre, ht, hlist]
  have hlen : base.data.length + 1 = (base.data ++ [sep]).length := by
    rw [List.length_append, List.length_singleton]
  rw [hlen, List.drop_left]

theorem map_slash_backslash_id : ∀ (l : List Char), '\\' ∉ l →
    (l.map (fun c => if c = '/' then '\\' else c)).map
      (fun c => if c = '\\' then '/' else c) = l := by
  intro l
  induction l with
  | nil => intro _; rfl
  | cons c rest ih =>
    intro h
    have hc : c ≠ '\\' := fun k => h (k ▸ List.mem_cons_self c rest)
    have hrest : '\\' ∉ rest := fun k => h (List.mem_cons_of_mem c k)
    rw [List.map_cons, List.map_cons, ih hrest]
    by_cases hcs : c = '/'
    · rw [if_pos hcs, if_pos rfl, hcs]
    · rw [if_neg hcs, if_neg hc]

/-- Claim C8: the canonical path of `FileInfo.init` is stable across
platforms — a backslash-separated spelling of the same relative path on a
`\`-separated OS, and an NFD-decomposed spelling of the same relative path,
both normalize to the identical canonical path, so they match in the
incremental-skip lookup. -/
theorem initNormPath_platform_stable :
    (∀ (rootW rootU tail : String), '\\' ∉ tail.data →
      initNormPath '\\' rootW (rootW ++ "\\" ++ toBackslash tail) =
        initNormPath '/' rootU (rootU ++ "/" ++ tail))
    ∧ (∀ root tail : String,
        initNormPath '/' root (root ++ "/" ++ decomposeStr tail) =
          initNormPath '/' root (root ++ "/" ++ tail)) := by
  constructor
  · intro rootW rootU tail h
    have hdW : (rootW ++ "\\" ++ toBackslash tail).data =
        rootW.data ++ '\\' :: (toBackslash tail).data := by
      rw [String.data_append, String.data_append, List.append_assoc]
      rfl
    have hdU : (rootU ++ "/" ++ tail).data = rootU.data ++ '/' :: tail.data := by
      rw [String.data_append, String.data_append, List.append_assoc]
      rfl
    rw [initNormPath, initNormPath,
      relPath_strip '\\' rootW ((toBackslash tail).data) _ hdW,
      relPath_strip '/' rootU tail.data _ hdU]
    rw [toSlash, if_neg (by decide), toSlash, if_pos rfl]
    have hmap : (String.mk ((toBackslash tail).data)).data.map
        (fun c => if c = '\\' then '/' else c) = tail.data := by
      show ((tail.data.map (fun c => if c = '/' then '\\' else c)).map
        (fun c => if c = '\\' then '/' else c)) = tail.data
      exact map_slash_backslash_id tail.data h
    rw [hmap]
  · intro root tail
    have hd1 : (root ++ "/" ++ decomposeStr tail).data =
        root.data ++ '/' :: (decomposeStr tail).data := by
      rw [String.data_append, String.data_append, List.append_assoc]
      rfl
    have hd2 : (root ++ "/" ++ tail).data = root.data ++ '/' :: tail.data := by
      rw [String.data_append, String.data_append, List.append_assoc]
      rfl
    rw [initNormPath, initNormPath,
      relPath_strip '/' root ((decomposeStr tail).data) _ hd1,
      relPath_strip '/' root tail.data _ hd2]
    rw [toSlash, if_pos rfl, toSlash, if_pos rfl]
    exact congrArg String.mk (nfcAux_decomposeList tail.data none)

/-- Witness for C8: `C:\dir\café.txt` under root `C:` (with the é
precomposed) and `/mnt/dir/café.txt` under root `/mnt` (with `é` spelled
`e` + combining acute) both canonicalize to `dir/café.txt`. -/
theorem initNormPath_platform_stable_witness :
    ('\\' ∉ ("dir/café.txt" : String).data) ∧
    initNormPath '\\' "C:" ("C:" ++ "\\" ++ toBackslash "dir/café.txt") =
      initNormPath '/' "/mnt" ("/mnt" ++ "/" ++ "dir/café.txt") ∧
    initNormPath '/' "/mnt" ("/mnt" ++ "/" ++ decomposeStr "dir/café.txt") =
      initNormPath '/' "/mnt" ("/mnt" ++ "/" ++ "dir/café.txt") :=
  ⟨by decide,
   initNormPath_platform_stable.1 "C:" "/mnt" "dir/café.txt" (by decide),
   initNormPath_platform_stable.2 "/mnt" "dir/café.txt"⟩

end Bcbc
